import Mathlib

/-!
Verification of the FFT window functions of
`src/AudioTools/AudioLibs/FFT/FFTWindows.h` (namespace `audio_tools`).

The C++ code is shallowly embedded: `float` arithmetic is idealised as real
arithmetic (the decimal constants of the source, such as `6.28318531`, are kept
literally), `int` members become `ℤ`, and the mutable objects become explicit
state records.  C++ integer division truncates towards zero, so `begin` uses
`Int.tdiv`.
-/

namespace audio_tools

noncomputable section

/-- State record of a `WindowFunction` object: the three mutable data members
`samples_minus_1`, `i_samples`, `i_half_samples` of the C++ class. -/
structure WState where
  samples_minus_1 : ℝ
  i_samples : ℤ
  i_half_samples : ℤ

/-- Constant `twoPi = 6.28318531f` of `WindowFunction`. -/
def twoPi : ℝ := 6.28318531

/-- Constant `fourPi = 12.56637061f` of `WindowFunction`. -/
def fourPi : ℝ := 12.56637061

/-- Constant `sixPi = 18.84955593f` of `WindowFunction`. -/
def sixPi : ℝ := 18.84955593

namespace WindowFunction

/-- Member initialisers of `WindowFunction`: `samples_minus_1 = 0.0f`,
`i_samples = 0`, `i_half_samples = 0`. -/
def init : WState := { samples_minus_1 := 0, i_samples := 0, i_half_samples := 0 }

/-- Method `WindowFunction::begin(int samples)`: all three members are
overwritten; `i_half_samples = samples / 2` uses C++ (truncating) division. -/
def begin (samples : ℤ) (_s : WState) : WState :=
  { samples_minus_1 := -1 + (samples : ℝ)
    i_samples := samples
    i_half_samples := samples.tdiv 2 }

/-- Helper method `WindowFunction::ratio(int idx)`:
`(static_cast<float>(idx)) / samples_minus_1`. -/
def ratioOf (s : WState) (idx : ℤ) : ℝ := (idx : ℝ) / s.samples_minus_1

/-- The final statement `return result > 1.0f ? 1.0f : result` of
`WindowFunction::factor`. -/
def clampOne (result : ℝ) : ℝ := if result > 1 then 1 else result

/-- Method `WindowFunction::factor(int idx)`, parametrised by the virtual
`factor_internal` of the concrete subclass: mirror indices above
`i_half_samples`, then clamp the result to at most `1.0`. -/
def factor (fi : WState → ℤ → ℝ) (s : WState) (idx : ℤ) : ℝ :=
  clampOne
    (if idx ≤ s.i_half_samples then fi s idx else fi s (s.i_samples - idx - 1))

/-- The condition of the `assert(i_half_samples == i_samples / 2)` executed at
the start of `WindowFunction::factor` (C++ truncating division). -/
def assertOk (s : WState) : Prop := s.i_half_samples = s.i_samples.tdiv 2

end WindowFunction

/-- The ten concrete window subclasses of the file (`Rectange` is the source's
spelling). -/
inductive WindowVariant
  | rectange
  | hamming
  | hann
  | triangle
  | nuttall
  | blackman
  | blackmanNuttall
  | blackmanHarris
  | flatTop
  | welch

namespace WindowVariant

open WindowFunction

/-- Virtual method `factor_internal` of each concrete window subclass,
transcribed formula by formula from the source. -/
def factor_internal : WindowVariant → WState → ℤ → ℝ
  | .rectange, s, idx =>
      if idx < 0 ∨ s.i_samples ≤ idx then 0 else 1
  | .hamming, s, idx =>
      0.54 - 0.46 * Real.cos (twoPi * ratioOf s idx)
  | .hann, s, idx =>
      0.54 * (1 - Real.cos (twoPi * ratioOf s idx))
  | .triangle, s, idx =>
      1 - 2 * |((idx - 1 : ℤ) : ℝ) - ((s.i_samples - 1 : ℤ) : ℝ) / 2| /
        s.samples_minus_1
  | .nuttall, s, idx =>
      0.355768 - 0.487396 * Real.cos (twoPi * ratioOf s idx) +
        0.144232 * Real.cos (fourPi * ratioOf s idx) -
        0.012604 * Real.cos (sixPi * ratioOf s idx)
  | .blackman, s, idx =>
      0.42323 - 0.49755 * Real.cos (twoPi * ratioOf s idx) +
        0.07922 * Real.cos (fourPi * ratioOf s idx)
  | .blackmanNuttall, s, idx =>
      0.3635819 - 0.4891775 * Real.cos (twoPi * ratioOf s idx) +
        0.1365995 * Real.cos (fourPi * ratioOf s idx) -
        0.0106411 * Real.cos (sixPi * ratioOf s idx)
  | .blackmanHarris, s, idx =>
      0.35875 - 0.48829 * Real.cos (twoPi * ratioOf s idx) +
        0.14128 * Real.cos (fourPi * ratioOf s idx) -
        0.01168 * Real.cos (sixPi * ratioOf s idx)
  | .flatTop, s, idx =>
      0.2810639 - 0.5208972 * Real.cos (twoPi * ratioOf s idx) +
        0.1980399 * Real.cos (fourPi * ratioOf s idx)
  | .welch, s, idx =>
      1 - (((idx - 1 : ℤ) : ℝ) - s.samples_minus_1 / 2) / (s.samples_minus_1 / 2) *
        ((((idx - 1 : ℤ) : ℝ) - s.samples_minus_1 / 2) / (s.samples_minus_1 / 2))

end WindowVariant

/-- State record of a `BufferedWindow` object: its own inherited
`WindowFunction` members, the members of the wrapped window `*p_wf`, and the
cache `buffer`.

Modelled from the spec: the container `Vector<float>` (declared in
`AudioTools/CoreAudio/AudioBasic/Collections/Vector.h`, which is not part of
the sources here) is modelled, following spec section 3, as an ordered
sequence of floating-point values indexed by position, with `size`, `resize`
and indexed read/write; it is represented by a `List ℝ`. -/
structure BWState where
  base : WState
  wrapped : WState
  buffer : List ℝ

namespace BufferedWindow

open WindowFunction

/-- Initial state of a freshly constructed `BufferedWindow` wrapping a freshly
constructed window: `Vector<float> buffer{0}` is the empty cache. -/
def init : BWState := { base := WindowFunction.init, wrapped := WindowFunction.init, buffer := [] }

/-- Method `BufferedWindow::begin(int samples)` for a wrapped window of
variant `v`: run the inherited `begin`, and if the wrapped window's length
changed, re-`begin` it; the cache is resized and refilled (with
`p_wf->factor(j)` for `j = 0 .. i_half_samples`) only when its size differs
from `i_half_samples + 1`. -/
def begin (v : WindowVariant) (samples : ℤ) (s : BWState) : BWState :=
  let base := WindowFunction.begin samples s.base
  if s.wrapped.i_samples ≠ samples then
    let w := WindowFunction.begin samples s.wrapped
    if (s.buffer.length : ℤ) ≠ base.i_half_samples + 1 then
      { base := base, wrapped := w
        buffer := (List.range (base.i_half_samples + 1).toNat).map
          (fun j : ℕ =>
            WindowFunction.factor (WindowVariant.factor_internal v) w (j : ℤ)) }
    else { base := base, wrapped := w, buffer := s.buffer }
  else { base := base, wrapped := s.wrapped, buffer := s.buffer }

/-- Method `BufferedWindow::factor_internal(int idx)`: `0.0` outside
`[0, i_half_samples]`, otherwise the cached `buffer[idx]`. -/
def factor_internal (s : BWState) (idx : ℤ) : ℝ :=
  if idx < 0 ∨ s.base.i_half_samples < idx then 0 else s.buffer.getD idx.toNat 0

/-- The inherited `WindowFunction::factor` as seen on a `BufferedWindow`
object: the virtual `factor_internal` reads the cache. -/
def factor (s : BWState) (idx : ℤ) : ℝ :=
  WindowFunction.factor (fun _ i => factor_internal s i) s.base idx

end BufferedWindow

/-- The two operations a caller can perform on a window object. -/
inductive Op
  | begin (n : ℤ)
  | factor (idx : ℤ)

/-- State transition of one call on a plain window object of variant `v`.
The bodies of `factor`, `factor_internal`, `samples` and `ratio` contain no
assignment, so a `factor` call leaves the state unchanged. -/
def stepW (_v : WindowVariant) (s : WState) : Op → WState
  | .begin n => WindowFunction.begin n s
  | .factor _ => s

/-- State transition of one call on a `BufferedWindow` object (wrapping a
window of variant `v`).  `BufferedWindow::factor_internal` only reads the
cache, so a `factor` call leaves the state unchanged. -/
def stepB (v : WindowVariant) (s : BWState) : Op → BWState
  | .begin n => BufferedWindow.begin v n s
  | .factor _ => s

/-- State of a plain window of variant `v` after a sequence of calls on a
freshly constructed object. -/
def execW (v : WindowVariant) (ops : List Op) : WState :=
  ops.foldl (stepW v) WindowFunction.init

/-- State of a `BufferedWindow` (wrapping a fresh window of variant `v`) after
a sequence of calls on a freshly constructed object. -/
def execB (v : WindowVariant) (ops : List Op) : BWState :=
  ops.foldl (stepB v) BufferedWindow.init

/-- Log of the invocations of the wrapped window's `factor_internal` caused by
one call on a `BufferedWindow` in state `s`: each entry is the frame length
configured in the wrapped window at the moment of the invocation.  Only the
cache-refill loop of `BufferedWindow::begin` ever invokes it (through
`p_wf->factor(j)`, which calls `factor_internal` exactly once per call);
`BufferedWindow::factor` serves from the cache. -/
def wrappedCallsOf (s : BWState) : Op → List ℤ
  | .begin n =>
    if s.wrapped.i_samples ≠ n then
      if (s.buffer.length : ℤ) ≠ (WindowFunction.begin n s.base).i_half_samples + 1 then
        List.replicate ((WindowFunction.begin n s.base).i_half_samples + 1).toNat n
      else []
    else []
  | .factor _ => []

/-- Run a call sequence on a fresh `BufferedWindow` (wrapping a fresh window of
variant `v`), accumulating the log of wrapped `factor_internal` invocations. -/
def execBLog (v : WindowVariant) (ops : List Op) : BWState × List ℤ :=
  ops.foldl (fun p op => (stepB v p.1 op, p.2 ++ wrappedCallsOf p.1 op))
    (BufferedWindow.init, [])

end

/-! ### General lemmas about `factor` -/

open WindowFunction

/-- C++ division by two agrees with Euclidean division on non-negative ints. -/
lemma tdiv_two_eq {N : ℤ} (h : 0 ≤ N) : N.tdiv 2 = N / 2 :=
  Int.tdiv_eq_ediv h (by norm_num)

/-- The final clamp yields a value at most one. -/
lemma clampOne_le_one (x : ℝ) : clampOne x ≤ 1 := by
  unfold clampOne
  split
  · exact le_refl 1
  · exact le_of_not_lt (by assumption)

/-- The final clamp does not drop below a lower bound that is at most one. -/
lemma le_clampOne {c x : ℝ} (hc : c ≤ 1) (h : c ≤ x) : c ≤ clampOne x := by
  unfold clampOne
  split
  · exact hc
  · exact h

/-- The final clamp is the identity on values at most one. -/
lemma clampOne_of_le {x : ℝ} (h : x ≤ 1) : clampOne x = x := by
  unfold clampOne
  rw [if_neg (not_lt.mpr h)]

/-- Clamping twice is the same as clamping once. -/
lemma clampOne_clampOne (x : ℝ) : clampOne (clampOne x) = clampOne x := by
  unfold clampOne
  split
  · norm_num
  · rfl

/-- The final clamp makes every `factor` result at most one. -/
lemma factor_le_one (fi : WState → ℤ → ℝ) (st : WState) (idx : ℤ) :
    factor fi st idx ≤ 1 :=
  clampOne_le_one _

/-- Value of `factor` at an index at most `i_half_samples`. -/
lemma factor_of_le (fi : WState → ℤ → ℝ) (st : WState) (idx : ℤ)
    (h : idx ≤ st.i_half_samples) :
    factor fi st idx = clampOne (fi st idx) := by
  unfold factor
  rw [if_pos h]

/-- Value of `factor` at an index above `i_half_samples`. -/
lemma factor_of_gt (fi : WState → ℤ → ℝ) (st : WState) (idx : ℤ)
    (h : st.i_half_samples < idx) :
    factor fi st idx = clampOne (fi st (st.i_samples - idx - 1)) := by
  unfold factor
  rw [if_neg (not_le.mpr h)]

/-- Mirroring: on an index strictly above `i_half_samples` and below
`i_samples`, `factor` agrees with `factor` at the mirrored index, for any
`factor_internal`. -/
lemma factor_mirror (fi : WState → ℤ → ℝ) (st : WState) (idx : ℤ)
    (hinv : st.i_half_samples = st.i_samples.tdiv 2) (hN : 1 ≤ st.i_samples)
    (h1 : st.i_half_samples < idx) (h2 : idx < st.i_samples) :
    factor fi st idx = factor fi st (st.i_samples - idx - 1) := by
  have hh : st.i_half_samples = st.i_samples / 2 := by
    rw [hinv, tdiv_two_eq (by omega)]
  rw [factor_of_gt fi st idx h1, factor_of_le fi st _ (by omega)]

/-- Symmetry of `factor` under `idx ↦ N - 1 - idx` for any `factor_internal`,
away from the central index pair of an even length. -/
lemma factor_symm_noncentral (fi : WState → ℤ → ℝ) (st : WState) (idx : ℤ)
    (hinv : st.i_half_samples = st.i_samples.tdiv 2) (hN : 2 ≤ st.i_samples)
    (h0 : 0 ≤ idx) (h2 : idx < st.i_samples)
    (hnc : st.i_samples % 2 = 1 ∨
      (idx ≠ st.i_samples / 2 - 1 ∧ idx ≠ st.i_samples / 2)) :
    factor fi st idx = factor fi st (st.i_samples - 1 - idx) := by
  have hh : st.i_half_samples = st.i_samples / 2 := by
    rw [hinv, tdiv_two_eq (by omega)]
  by_cases hc1 : idx ≤ st.i_half_samples
  · by_cases hc2 : st.i_samples - 1 - idx ≤ st.i_half_samples
    · have he : idx = st.i_samples - 1 - idx := by omega
      rw [← he]
    · rw [factor_of_le fi st idx hc1, factor_of_gt fi st _ (not_le.mp hc2)]
      have he : st.i_samples - (st.i_samples - 1 - idx) - 1 = idx := by ring
      rw [he]
  · by_cases hc2 : st.i_samples - 1 - idx ≤ st.i_half_samples
    · rw [factor_of_gt fi st idx (not_le.mp hc1), factor_of_le fi st _ hc2]
      have he : st.i_samples - idx - 1 = st.i_samples - 1 - idx := by ring
      rw [he]
    · omega

/-- Fields of the state produced by `WindowFunction::begin`. -/
lemma begin_i_samples (N : ℤ) (s : WState) : (begin N s).i_samples = N := rfl

/-- Half-length field produced by `WindowFunction::begin`. -/
lemma begin_i_half_samples (N : ℤ) (s : WState) :
    (begin N s).i_half_samples = N.tdiv 2 := rfl

/-- Frame-length field produced by `WindowFunction::begin`. -/
lemma begin_samples_minus_1 (N : ℤ) (s : WState) :
    (begin N s).samples_minus_1 = -1 + (N : ℝ) := rfl

/-- The inherited base state of a `BufferedWindow` after `begin`. -/
lemma bbegin_base (v : WindowVariant) (N : ℤ) (s : BWState) :
    (BufferedWindow.begin v N s).base = begin N s.base := by
  unfold BufferedWindow.begin
  by_cases h1 : s.wrapped.i_samples ≠ N
  · by_cases h2 : (s.buffer.length : ℤ) ≠ (begin N s.base).i_half_samples + 1
    · simp [h1, h2]
    · simp [h1, h2]
  · simp [h1]

/-- The wrapped state of a `BufferedWindow` after `begin`. -/
lemma bbegin_wrapped (v : WindowVariant) (N : ℤ) (s : BWState) :
    (BufferedWindow.begin v N s).wrapped =
      if s.wrapped.i_samples ≠ N then begin N s.wrapped else s.wrapped := by
  unfold BufferedWindow.begin
  by_cases h1 : s.wrapped.i_samples ≠ N
  · by_cases h2 : (s.buffer.length : ℤ) ≠ (begin N s.base).i_half_samples + 1
    · simp [h1, h2]
    · simp [h1, h2]
  · simp [h1]

/-- Full description of `BufferedWindow::begin` when the frame length changed
and the cache size does not match: the cache is refilled from the wrapped
window. -/
lemma bbegin_of_changed (v : WindowVariant) (N : ℤ) (s : BWState)
    (h1 : s.wrapped.i_samples ≠ N)
    (h2 : (s.buffer.length : ℤ) ≠ N.tdiv 2 + 1) :
    BufferedWindow.begin v N s =
      { base := begin N s.base, wrapped := begin N s.wrapped
        buffer := (List.range (N.tdiv 2 + 1).toNat).map
          (fun j : ℕ =>
            factor v.factor_internal (begin N s.wrapped) (j : ℤ)) } := by
  unfold BufferedWindow.begin
  simp [h1, h2, begin_i_half_samples]

/-- Reading an in-range position of a range-generated list. -/
lemma getD_map_range (n k : ℕ) (f : ℕ → ℝ) (hk : k < n) :
    ((List.range n).map f).getD k 0 = f k := by
  rw [List.getD_eq_getElem?_getD, List.getElem?_map, List.getElem?_range hk]
  rfl

/-- Invariant of the `factor` assertion is established by `begin`. -/
lemma assertOk_begin (N : ℤ) (s : WState) : assertOk (begin N s) := rfl

/-- Invariant of the `factor` assertion holds in the freshly constructed
state. -/
lemma assertOk_init : assertOk WindowFunction.init := rfl

/-- One call on a plain window preserves the `factor` assertion invariant. -/
lemma assertOk_stepW (v : WindowVariant) (s : WState) (op : Op)
    (h : assertOk s) : assertOk (stepW v s op) := by
  cases op with
  | begin n => exact assertOk_begin n s
  | factor i => exact h

/-- One call on a `BufferedWindow` preserves the `factor` assertion invariant
of both the inherited state and the wrapped window's state. -/
lemma assertOk_stepB (v : WindowVariant) (s : BWState) (op : Op)
    (h1 : assertOk s.base) (h2 : assertOk s.wrapped) :
    assertOk (stepB v s op).base ∧ assertOk (stepB v s op).wrapped := by
  cases op with
  | begin n =>
    constructor
    · rw [show stepB v s (Op.begin n) = BufferedWindow.begin v n s from rfl,
        bbegin_base]
      exact assertOk_begin n s.base
    · rw [show stepB v s (Op.begin n) = BufferedWindow.begin v n s from rfl,
        bbegin_wrapped]
      split
      · exact assertOk_begin n s.wrapped
      · exact h2
  | factor i => exact ⟨h1, h2⟩

/-- The assertion invariant holds after any sequence of calls on a plain
window, from any state satisfying it. -/
lemma assertOk_foldW (v : WindowVariant) (ops : List Op) :
    ∀ s : WState, assertOk s → assertOk (ops.foldl (stepW v) s) := by
  induction ops with
  | nil => exact fun s h => h
  | cons op rest ih => exact fun s h => ih _ (assertOk_stepW v s op h)

/-- The assertion invariant holds after any sequence of calls on a
`BufferedWindow`, from any state satisfying it. -/
lemma assertOk_foldB (v : WindowVariant) (ops : List Op) :
    ∀ s : BWState, assertOk s.base → assertOk s.wrapped →
      assertOk (ops.foldl (stepB v) s).base ∧
        assertOk (ops.foldl (stepB v) s).wrapped := by
  induction ops with
  | nil => exact fun s h1 h2 => ⟨h1, h2⟩
  | cons op rest ih =>
    intro s h1 h2
    have h := assertOk_stepB v s op h1 h2
    exact ih _ h.1 h.2

/-- After a `begin(N)` (with `N ≥ 1`) that re-configured the wrapped window and
refilled the cache, the buffered window's `factor` agrees with the wrapped
variant's own `factor` on the whole frame. -/
lemma buffered_factor_fresh (v : WindowVariant) (N : ℤ) (s : BWState) (hN : 1 ≤ N)
    (h1 : s.wrapped.i_samples ≠ N) (h2 : (s.buffer.length : ℤ) ≠ N.tdiv 2 + 1)
    (idx : ℤ) (h0 : 0 ≤ idx) (hiN : idx < N) :
    BufferedWindow.factor (BufferedWindow.begin v N s) idx =
      factor v.factor_internal (begin N s.wrapped) idx := by
  have hh : N.tdiv 2 = N / 2 := tdiv_two_eq (by omega)
  rw [bbegin_of_changed v N s h1 h2]
  set w := begin N s.wrapped with hw
  set T : BWState :=
    { base := begin N s.base, wrapped := w
      buffer := (List.range (N.tdiv 2 + 1).toNat).map
        (fun j : ℕ => factor v.factor_internal w (j : ℤ)) } with hT
  have hbase : T.base.i_half_samples = N.tdiv 2 := rfl
  have hsamp : T.base.i_samples = N := rfl
  have hwh : w.i_half_samples = N.tdiv 2 := rfl
  have hws : w.i_samples = N := rfl
  have hget : ∀ j : ℤ, 0 ≤ j → j ≤ N.tdiv 2 →
      BufferedWindow.factor_internal T j = factor v.factor_internal w j := by
    intro j hj0 hjh
    unfold BufferedWindow.factor_internal
    rw [if_neg (by rw [hbase]; omega)]
    show ((List.range (N.tdiv 2 + 1).toNat).map
      (fun j : ℕ => factor v.factor_internal w (j : ℤ))).getD j.toNat 0 = _
    rw [getD_map_range _ _ _ (by omega)]
    rw [Int.toNat_of_nonneg hj0]
  by_cases hc : idx ≤ N.tdiv 2
  · rw [BufferedWindow.factor, factor_of_le _ _ _ (by rw [hbase]; exact hc),
      hget idx h0 hc, factor_of_le _ _ _ (by rw [hwh]; exact hc)]
    exact clampOne_clampOne _
  · push_neg at hc
    have hR : factor v.factor_internal w idx =
        clampOne (v.factor_internal w (N - idx - 1)) := by
      rw [factor_of_gt _ _ _ (by rw [hwh]; exact hc), hws]
    have hL : BufferedWindow.factor T idx =
        clampOne (factor v.factor_internal w (N - idx - 1)) := by
      rw [BufferedWindow.factor, factor_of_gt _ _ _ (by rw [hbase]; exact hc), hsamp,
        hget (N - idx - 1) (by omega) (by omega)]
    rw [hL, hR, factor_of_le _ _ _ (by rw [hwh]; omega)]
    exact clampOne_clampOne _

/-- A tail of `factor`-only calls leaves a plain window's state unchanged. -/
lemma foldW_factors (v : WindowVariant) (rest : List Op)
    (h : ∀ o ∈ rest, ∃ i, o = Op.factor i) :
    ∀ s : WState, rest.foldl (stepW v) s = s := by
  induction rest with
  | nil => exact fun s => rfl
  | cons op tail ih =>
    intro s
    obtain ⟨i, hi⟩ := h op (by simp)
    rw [List.foldl_cons, hi]
    exact ih (fun o ho => h o (by simp [ho])) s

/-- A tail of `factor`-only calls leaves a `BufferedWindow`'s state
unchanged. -/
lemma foldB_factors (v : WindowVariant) (rest : List Op)
    (h : ∀ o ∈ rest, ∃ i, o = Op.factor i) :
    ∀ s : BWState, rest.foldl (stepB v) s = s := by
  induction rest with
  | nil => exact fun s => rfl
  | cons op tail ih =>
    intro s
    obtain ⟨i, hi⟩ := h op (by simp)
    rw [List.foldl_cons, hi]
    exact ih (fun o ho => h o (by simp [ho])) s

/-- A single `begin(N)` call invokes the wrapped window's `factor_internal` at
most `N/2 + 1` times, from any state. -/
lemma wrappedCalls_begin_le (s : BWState) (N : ℤ) (hN : 0 ≤ N) :
    ((wrappedCallsOf s (Op.begin N)).length : ℤ) ≤ N.tdiv 2 + 1 := by
  have hh : N.tdiv 2 = N / 2 := tdiv_two_eq hN
  simp only [wrappedCallsOf]
  split
  · split
    · rw [List.length_replicate, begin_i_half_samples]
      omega
    · simp only [List.length_nil]
      omega
  · simp only [List.length_nil]
    omega

/-- A tail of `factor`-only calls neither changes the state nor adds wrapped
`factor_internal` invocations to the log. -/
lemma foldBLog_factors (v : WindowVariant) (rest : List Op)
    (h : ∀ o ∈ rest, ∃ i, o = Op.factor i) :
    ∀ p : BWState × List ℤ,
      rest.foldl (fun p op => (stepB v p.1 op, p.2 ++ wrappedCallsOf p.1 op)) p = p := by
  induction rest with
  | nil => exact fun p => rfl
  | cons op tail ih =>
    intro p
    obtain ⟨i, hi⟩ := h op (by simp)
    rw [List.foldl_cons, hi]
    show tail.foldl _ (stepB v p.1 (Op.factor i), p.2 ++ []) = p
    rw [List.append_nil]
    show tail.foldl _ (p.1, p.2) = p
    exact ih (fun o ho => h o (by simp [ho])) p

/-- Behaviour of `BufferedWindow::begin` when the frame length changed but the
cache size already equals `i_half_samples + 1`: the stale cache contents are
kept. -/
lemma bbegin_keep_buffer (v : WindowVariant) (N : ℤ) (s : BWState)
    (h1 : s.wrapped.i_samples ≠ N) (h2 : (s.buffer.length : ℤ) = N.tdiv 2 + 1) :
    BufferedWindow.begin v N s =
      { base := begin N s.base, wrapped := begin N s.wrapped, buffer := s.buffer } := by
  unfold BufferedWindow.begin
  simp [h1, h2, begin_i_half_samples]

/-- The Triangle formula evaluated at index `0` after `begin(N)`. -/
lemma triangle_at_zero (N : ℤ) (s : WState) :
    WindowVariant.factor_internal .triangle (begin N s) 0 =
      1 - 2 * |(-1 : ℝ) - ((N : ℝ) - 1) / 2| / (-1 + (N : ℝ)) := by
  simp only [WindowVariant.factor_internal, begin_i_samples, begin_samples_minus_1]
  norm_num

/-! ### Bounds on the window formulas (for C1)

The source's angle constants satisfy `sixPi = 3 * twoPi` exactly, while
`fourPi = 2 * twoPi - 1e-8`: the `cos (fourPi * r)` term is an inexact double
angle and is handled through a Lipschitz-style perturbation bound. -/

/-- Relation between the source constants `fourPi` and `twoPi`. -/
lemma fourPi_eq : fourPi = 2 * twoPi - 1 / 100000000 := by
  unfold twoPi fourPi
  norm_num

/-- Relation between the source constants `sixPi` and `twoPi`. -/
lemma sixPi_eq : sixPi = 3 * twoPi := by
  unfold twoPi sixPi
  norm_num

/-- Coarse perturbation bound: shifting the angle by a small `u` lowers the
cosine by at most `u + u²`. -/
lemma cos_sub_small_coarse (a u : ℝ) (h0 : 0 ≤ u) (h1 : u ≤ 1) :
    Real.cos a - (u + u ^ 2) ≤ Real.cos (a - u) := by
  have hid := Real.cos_sub a u
  have hcu : 1 - u ^ 2 / 2 ≤ Real.cos u := Real.one_sub_sq_div_two_le_cos
  have hcu1 : Real.cos u ≤ 1 := Real.cos_le_one u
  have hsu0 : 0 ≤ Real.sin u :=
    Real.sin_nonneg_of_nonneg_of_le_pi h0 (le_trans h1 (by linarith [Real.pi_gt_three]))
  have hsu1 : Real.sin u ≤ u := Real.sin_le h0
  have hca : -1 ≤ Real.cos a := Real.neg_one_le_cos a
  have hca1 : Real.cos a ≤ 1 := Real.cos_le_one a
  have hsa : -1 ≤ Real.sin a := Real.neg_one_le_sin a
  rw [hid]
  nlinarith [mul_nonneg hsu0 (by linarith : (0:ℝ) ≤ 1 + Real.sin a),
    mul_nonneg (by linarith : (0:ℝ) ≤ 1 - Real.cos a)
      (by linarith : (0:ℝ) ≤ 1 - Real.cos u)]

/-- Fine perturbation bound for a double angle: the loss is at most
`u² + 2 |sin a| u`, which vanishes quadratically near the critical point
`a = 0`. -/
lemma cos_two_sub_small_fine (a u : ℝ) (h0 : 0 ≤ u) (h1 : u ≤ 1) :
    Real.cos (2 * a) - (u ^ 2 + 2 * |Real.sin a| * u) ≤ Real.cos (2 * a - u) := by
  have hid := Real.cos_sub (2 * a) u
  have hs2 : Real.sin (2 * a) = 2 * Real.sin a * Real.cos a := Real.sin_two_mul a
  have hcu : 1 - u ^ 2 / 2 ≤ Real.cos u := Real.one_sub_sq_div_two_le_cos
  have hcu1 : Real.cos u ≤ 1 := Real.cos_le_one u
  have hsu0 : 0 ≤ Real.sin u :=
    Real.sin_nonneg_of_nonneg_of_le_pi h0 (le_trans h1 (by linarith [Real.pi_gt_three]))
  have hsu1 : Real.sin u ≤ u := Real.sin_le h0
  have hc2a : -1 ≤ Real.cos (2 * a) := Real.neg_one_le_cos (2 * a)
  have hc2a1 : Real.cos (2 * a) ≤ 1 := Real.cos_le_one (2 * a)
  have habs : |Real.sin a * Real.cos a| ≤ |Real.sin a| := by
    rw [abs_mul]
    exact mul_le_of_le_one_right (abs_nonneg _) (Real.abs_cos_le_one a)
  have hmlo : -|Real.sin a| ≤ Real.sin a * Real.cos a := by
    have := neg_abs_le (Real.sin a * Real.cos a)
    linarith
  have habs0 : 0 ≤ |Real.sin a| := abs_nonneg _
  rw [hid, hs2]
  nlinarith [mul_nonneg (by linarith : (0:ℝ) ≤ Real.sin a * Real.cos a + |Real.sin a|) hsu0,
    mul_nonneg habs0 (by linarith : (0:ℝ) ≤ u - Real.sin u),
    mul_nonneg (by linarith : (0:ℝ) ≤ 1 - Real.cos (2 * a))
      (by linarith : (0:ℝ) ≤ 1 - Real.cos u)]

/-- Chebyshev form of the Nuttall formula minus its error slack: the cubic in
`c = cos(twoPi r)` stays above `0.023904 (1 - c)`. -/
lemma nuttall_poly (c : ℝ) (hc : c ≤ 1) :
    0.023904 * (1 - c) ≤ 0.211536 - 0.449584 * c + 0.288464 * c ^ 2 - 0.050416 * c ^ 3 := by
  nlinarith [mul_nonneg (mul_self_nonneg (1 - c))
    (by nlinarith : (0:ℝ) ≤ 0.187632 - 0.050416 * c)]

/-- Chebyshev form of the Blackman formula: minimum `0.0049` at `c = 1`. -/
lemma blackman_poly (c : ℝ) (hc : c ≤ 1) :
    0.0049 ≤ 0.34401 - 0.49755 * c + 0.15844 * c ^ 2 := by
  nlinarith [mul_nonneg (by linarith : (0:ℝ) ≤ 1 - c)
    (by nlinarith : (0:ℝ) ≤ 0.33911 - 0.15844 * c)]

/-- Chebyshev form of the BlackmanNuttall formula: minimum `0.0003628` at
`c = 1`. -/
lemma bn_poly (c : ℝ) (hc : c ≤ 1) :
    0.0003628 ≤ 0.2269824 - 0.4572542 * c + 0.273199 * c ^ 2 - 0.0425644 * c ^ 3 := by
  have ht : (0:ℝ) ≤ 1 - c := by linarith
  nlinarith [mul_nonneg ht
    (by nlinarith [sq_nonneg (1 - c)] : (0:ℝ) ≤ 0.0425644 * c ^ 2 - 0.2306346 * c + 0.2266196)]

/-- Chebyshev form of the BlackmanHarris formula: minimum `0.00006` at
`c = 1`. -/
lemma bh_poly (c : ℝ) (hc : c ≤ 1) :
    0.00006 ≤ 0.21747 - 0.45325 * c + 0.28256 * c ^ 2 - 0.04672 * c ^ 3 := by
  have ht : (0:ℝ) ≤ 1 - c := by linarith
  nlinarith [mul_nonneg ht
    (by nlinarith [sq_nonneg (1 - c)] : (0:ℝ) ≤ 0.04672 * c ^ 2 - 0.23584 * c + 0.21741)]

/-- Nonnegativity of the Blackman formula over the whole normalised range. -/
lemma blackman_formula_nonneg (r : ℝ) (h0 : 0 ≤ r) (h1 : r ≤ 1) :
    0 ≤ 0.42323 - 0.49755 * Real.cos (twoPi * r) + 0.07922 * Real.cos (fourPi * r) := by
  have harg : fourPi * r = 2 * (twoPi * r) - r / 100000000 := by
    rw [fourPi_eq]; ring
  have hu0 : (0:ℝ) ≤ r / 100000000 := by positivity
  have hu1 : r / 100000000 ≤ 1 := by linarith
  have hcos := cos_sub_small_coarse (2 * (twoPi * r)) (r / 100000000) hu0 hu1
  rw [← harg, Real.cos_two_mul] at hcos
  have hc1 : Real.cos (twoPi * r) ≤ 1 := Real.cos_le_one _
  have hpoly := blackman_poly (Real.cos (twoPi * r)) hc1
  have hub : r / 100000000 ≤ 1 / 100000000 := by linarith
  nlinarith [hcos, hpoly, mul_nonneg hu0 hu0,
    mul_le_mul hub hub hu0 (by norm_num)]

/-- Nonnegativity of the BlackmanNuttall formula over the whole normalised
range. -/
lemma bn_formula_nonneg (r : ℝ) (h0 : 0 ≤ r) (h1 : r ≤ 1) :
    0 ≤ 0.3635819 - 0.4891775 * Real.cos (twoPi * r) +
      0.1365995 * Real.cos (fourPi * r) - 0.0106411 * Real.cos (sixPi * r) := by
  have harg : fourPi * r = 2 * (twoPi * r) - r / 100000000 := by
    rw [fourPi_eq]; ring
  have harg6 : sixPi * r = 3 * (twoPi * r) := by rw [sixPi_eq]; ring
  have hu0 : (0:ℝ) ≤ r / 100000000 := by positivity
  have hu1 : r / 100000000 ≤ 1 := by linarith
  have hcos := cos_sub_small_coarse (2 * (twoPi * r)) (r / 100000000) hu0 hu1
  rw [← harg, Real.cos_two_mul] at hcos
  rw [harg6, Real.cos_three_mul]
  have hc1 : Real.cos (twoPi * r) ≤ 1 := Real.cos_le_one _
  have hpoly := bn_poly (Real.cos (twoPi * r)) hc1
  have hub : r / 100000000 ≤ 1 / 100000000 := by linarith
  nlinarith [hcos, hpoly, mul_nonneg hu0 hu0,
    mul_le_mul hub hub hu0 (by norm_num)]

/-- Nonnegativity of the BlackmanHarris formula over the whole normalised
range. -/
lemma bh_formula_nonneg (r : ℝ) (h0 : 0 ≤ r) (h1 : r ≤ 1) :
    0 ≤ 0.35875 - 0.48829 * Real.cos (twoPi * r) +
      0.14128 * Real.cos (fourPi * r) - 0.01168 * Real.cos (sixPi * r) := by
  have harg : fourPi * r = 2 * (twoPi * r) - r / 100000000 := by
    rw [fourPi_eq]; ring
  have harg6 : sixPi * r = 3 * (twoPi * r) := by rw [sixPi_eq]; ring
  have hu0 : (0:ℝ) ≤ r / 100000000 := by positivity
  have hu1 : r / 100000000 ≤ 1 := by linarith
  have hcos := cos_sub_small_coarse (2 * (twoPi * r)) (r / 100000000) hu0 hu1
  rw [← harg, Real.cos_two_mul] at hcos
  rw [harg6, Real.cos_three_mul]
  have hc1 : Real.cos (twoPi * r) ≤ 1 := Real.cos_le_one _
  have hpoly := bh_poly (Real.cos (twoPi * r)) hc1
  have hub : r / 100000000 ≤ 1 / 100000000 := by linarith
  nlinarith [hcos, hpoly, mul_nonneg hu0 hu0,
    mul_le_mul hub hub hu0 (by norm_num)]

/-- Nonnegativity of the Hamming formula. -/
lemma hamming_formula_nonneg (r : ℝ) :
    0 ≤ 0.54 - 0.46 * Real.cos (twoPi * r) := by
  nlinarith [Real.cos_le_one (twoPi * r)]

/-- Nonnegativity of the Hann formula. -/
lemma hann_formula_nonneg (r : ℝ) :
    0 ≤ 0.54 * (1 - Real.cos (twoPi * r)) := by
  nlinarith [Real.cos_le_one (twoPi * r)]

set_option maxHeartbeats 1000000 in
/-- Nonnegativity of the Nuttall formula at the extreme normalised position
`r = 1` (reached only for `N = 2`): here all three cosine arguments sit just
past full turns of the circle, and 20-digit bounds on `π` settle the sign. -/
lemma nuttall_formula_nonneg_one :
    0 ≤ 0.355768 - 0.487396 * Real.cos (twoPi * 1) +
      0.144232 * Real.cos (fourPi * 1) - 0.012604 * Real.cos (sixPi * 1) := by
  have hpl : 3.14159265358979323846 < Real.pi := Real.pi_gt_d20
  have hpu : Real.pi < 3.14159265358979323847 := Real.pi_lt_d20
  have htwo : twoPi = 6.28318531 := rfl
  have hfour : fourPi = 12.56637061 := rfl
  have hsix : sixPi = 18.84955593 := rfl
  have e1 : Real.cos (twoPi * 1) = Real.cos (twoPi - 2 * Real.pi) := by
    rw [mul_one, Real.cos_sub_two_pi]
  have e2 : Real.cos (fourPi * 1) =
      Real.cos (fourPi - 2 * Real.pi - 2 * Real.pi) := by
    rw [mul_one, Real.cos_sub_two_pi, Real.cos_sub_two_pi]
  have e3 : Real.cos (sixPi * 1) =
      Real.cos (sixPi - 2 * Real.pi - 2 * Real.pi - 2 * Real.pi) := by
    rw [mul_one, Real.cos_sub_two_pi, Real.cos_sub_two_pi, Real.cos_sub_two_pi]
  rw [e1, e2, e3]
  set D1 : ℝ := twoPi - 2 * Real.pi with hD1
  set D2 : ℝ := fourPi - 2 * Real.pi - 2 * Real.pi with hD2
  set D3 : ℝ := sixPi - 2 * Real.pi - 2 * Real.pi - 2 * Real.pi with hD3
  have hd1l : 0.00000000282041352306 < D1 := by rw [hD1, htwo]; linarith
  have hd1u : D1 < 0.00000000282041352308 := by rw [hD1, htwo]; linarith
  have hd2l : -0.00000000435917295388 < D2 := by rw [hD2, hfour]; linarith
  have hd2u : D2 < -0.00000000435917295384 := by rw [hD2, hfour]; linarith
  have hd3l : 0.00000000846124056918 < D3 := by rw [hD3, hsix]; linarith
  have hd3u : D3 < 0.00000000846124056924 := by rw [hD3, hsix]; linarith
  have ha1 : |D1| ≤ 0.00000001 := abs_le.mpr ⟨by linarith, by linarith⟩
  have ha2 : |D2| ≤ 0.00000001 := abs_le.mpr ⟨by linarith, by linarith⟩
  have ha3 : |D3| ≤ 0.00000001 := abs_le.mpr ⟨by linarith, by linarith⟩
  have hb1 := Real.cos_bound (le_trans ha1 (by norm_num))
  have hb2 := Real.cos_bound (le_trans ha2 (by norm_num))
  have hb3 := Real.cos_bound (le_trans ha3 (by norm_num))
  rw [abs_le] at hb1 hb2 hb3
  have hq1 : |D1| ^ 4 ≤ (1 : ℝ) / 10 ^ 32 := by
    calc |D1| ^ 4 ≤ (0.00000001 : ℝ) ^ 4 := pow_le_pow_left (abs_nonneg _) ha1 4
      _ ≤ (1 : ℝ) / 10 ^ 32 := by norm_num
  have hq2 : |D2| ^ 4 ≤ (1 : ℝ) / 10 ^ 32 := by
    calc |D2| ^ 4 ≤ (0.00000001 : ℝ) ^ 4 := pow_le_pow_left (abs_nonneg _) ha2 4
      _ ≤ (1 : ℝ) / 10 ^ 32 := by norm_num
  have hq3 : |D3| ^ 4 ≤ (1 : ℝ) / 10 ^ 32 := by
    calc |D3| ^ 4 ≤ (0.00000001 : ℝ) ^ 4 := pow_le_pow_left (abs_nonneg _) ha3 4
      _ ≤ (1 : ℝ) / 10 ^ 32 := by norm_num
  have hsq1 : 0.0000000000000000079547 < D1 ^ 2 := by
    have h := mul_lt_mul'' hd1l hd1l (by norm_num) (by norm_num)
    have hnum : (0.0000000000000000079547 : ℝ) ≤
        0.00000000282041352306 * 0.00000000282041352306 := by norm_num
    rw [pow_two]
    linarith
  have hsq2 : D2 ^ 2 < 0.0000000000000000190024 := by
    have h := mul_lt_mul'' (show -D2 < 0.00000000435917295388 by linarith)
      (show -D2 < 0.00000000435917295388 by linarith) (by linarith) (by linarith)
    have hnum : (0.00000000435917295388 : ℝ) * 0.00000000435917295388 ≤
        0.0000000000000000190024 := by norm_num
    have hDD : -D2 * -D2 = D2 ^ 2 := by ring
    rw [← hDD]
    linarith
  have hsq3 : 0.0000000000000000715925 < D3 ^ 2 := by
    have h := mul_lt_mul'' hd3l hd3l (by norm_num) (by norm_num)
    have hnum : (0.0000000000000000715925 : ℝ) ≤
        0.00000000846124056918 * 0.00000000846124056918 := by norm_num
    rw [pow_two]
    linarith
  have hcos1 : Real.cos D1 ≤ 1 - 0.0000000000000000079547 / 2 + (5 / 96) / 10 ^ 32 :=
    by linarith [hb1.2]
  have hcos2 : 1 - 0.0000000000000000190024 / 2 - (5 / 96) / 10 ^ 32 ≤ Real.cos D2 :=
    by linarith [hb2.1]
  have hcos3 : Real.cos D3 ≤ 1 - 0.0000000000000000715925 / 2 + (5 / 96) / 10 ^ 32 :=
    by linarith [hb3.2]
  linarith [hcos1, hcos2, hcos3]

set_option maxHeartbeats 1600000 in
/-- Nonnegativity of the Nuttall formula on the normalised range reachable for
frame lengths `N ≥ 3` (`0 < r ≤ 2/3`): split at angle `1`, using the cubic
lower bound on the sine near `0` and monotonicity of the cosine further out. -/
lemma nuttall_formula_nonneg_mid (r : ℝ) (h0 : 0 < r) (h1 : r ≤ 2 / 3) :
    0 ≤ 0.355768 - 0.487396 * Real.cos (twoPi * r) +
      0.144232 * Real.cos (fourPi * r) - 0.012604 * Real.cos (sixPi * r) := by
  have htwo : twoPi = 6.28318531 := rfl
  have harg : fourPi * r = 2 * (twoPi * r) - r / 100000000 := by
    rw [fourPi_eq]; ring
  have harg6 : sixPi * r = 3 * (twoPi * r) := by rw [sixPi_eq]; ring
  have hu0 : (0:ℝ) ≤ r / 100000000 := by positivity
  have hu1 : r / 100000000 ≤ 1 := by linarith
  have hcos := cos_two_sub_small_fine (twoPi * r) (r / 100000000) hu0 hu1
  rw [show 2 * (twoPi * r) - r / 100000000 = fourPi * r from by rw [harg]] at hcos
  rw [Real.cos_two_mul] at hcos
  rw [harg6, Real.cos_three_mul]
  have hθ0 : 0 < twoPi * r := by rw [htwo]; linarith
  have hθub : twoPi * r ≤ 4.18879021 := by rw [htwo]; linarith
  have hc1 : Real.cos (twoPi * r) ≤ 1 := Real.cos_le_one _
  have hpoly := nuttall_poly (Real.cos (twoPi * r)) hc1
  have habs0 : 0 ≤ |Real.sin (twoPi * r)| := abs_nonneg _
  rcases le_or_lt (twoPi * r) 1 with hθ1 | hθ1
  · have hsin := Real.sin_gt_sub_cube hθ0 hθ1
    have hsp : 0 ≤ Real.sin (twoPi * r) :=
      Real.sin_nonneg_of_nonneg_of_le_pi hθ0.le
        (le_trans hθ1 (by linarith [Real.pi_gt_three]))
    have hv : |Real.sin (twoPi * r)| = Real.sin (twoPi * r) := abs_of_nonneg hsp
    have hcube : (twoPi * r) ^ 3 ≤ twoPi * r := by
      nlinarith [mul_nonneg hθ0.le (mul_nonneg
        (by linarith : (0:ℝ) ≤ 1 - twoPi * r)
        (by linarith : (0:ℝ) ≤ 1 + twoPi * r))]
    have hv34 : 3 / 4 * (twoPi * r) ≤ |Real.sin (twoPi * r)| := by
      rw [hv]; linarith
    have hv34n : 3 / 4 * (6.28318531 * r) ≤ |Real.sin (twoPi * r)| := by
      calc 3 / 4 * (6.28318531 * r) = 3 / 4 * (twoPi * r) := by rw [htwo]
        _ ≤ _ := hv34
    have hurel : r / 100000000 ≤ 0.0000000022 * |Real.sin (twoPi * r)| := by
      linarith
    have h1c : |Real.sin (twoPi * r)| ^ 2 ≤ 2 * (1 - Real.cos (twoPi * r)) := by
      have hpy := Real.sin_sq_add_cos_sq (twoPi * r)
      have hcl : -1 ≤ Real.cos (twoPi * r) := Real.neg_one_le_cos _
      nlinarith [sq_abs (Real.sin (twoPi * r)), sq_nonneg (1 - Real.cos (twoPi * r))]
    have huv : (r / 100000000) * |Real.sin (twoPi * r)| ≤
        (0.0000000022 * |Real.sin (twoPi * r)|) * |Real.sin (twoPi * r)| :=
      mul_le_mul_of_nonneg_right hurel habs0
    have huu : (r / 100000000) * (r / 100000000) ≤
        (0.0000000022 * |Real.sin (twoPi * r)|) * (r / 100000000) :=
      mul_le_mul_of_nonneg_right hurel hu0
    have huv2 : (0.0000000022 * |Real.sin (twoPi * r)|) * (r / 100000000) ≤
        (0.0000000022 * |Real.sin (twoPi * r)|) * (0.0000000022 * |Real.sin (twoPi * r)|) := by
      have := mul_le_mul_of_nonneg_left hurel
        (by positivity : (0:ℝ) ≤ 0.0000000022 * |Real.sin (twoPi * r)|)
      linarith
    nlinarith [hcos, hpoly, h1c, huv, huu, huv2, habs0, hu0, sq_abs (Real.sin (twoPi * r))]
  · have hcle : Real.cos (twoPi * r) ≤ 0.553 := by
      rcases le_or_lt (twoPi * r) Real.pi with hp | hp
      · have hmono := Real.cos_le_cos_of_nonneg_of_le_pi
          (by norm_num : (0:ℝ) ≤ 1) hp hθ1.le
        have hb := Real.cos_bound (show |(1:ℝ)| ≤ 1 by norm_num)
        rw [abs_le] at hb
        have h14 : |(1:ℝ)| ^ 4 = 1 := by norm_num
        rw [h14] at hb
        norm_num at hb
        linarith [hb.2]
      · have hnp := Real.cos_nonpos_of_pi_div_two_le_of_le
          (by linarith [Real.pi_gt_three] : Real.pi / 2 ≤ twoPi * r)
          (by linarith [Real.pi_gt_three] : twoPi * r ≤ Real.pi + Real.pi / 2)
        linarith
    have hv1 : |Real.sin (twoPi * r)| ≤ 1 := Real.abs_sin_le_one _
    have hub : r / 100000000 ≤ 1 / 100000000 := by linarith
    have huv : (r / 100000000) * |Real.sin (twoPi * r)| ≤ 1 / 100000000 := by
      calc (r / 100000000) * |Real.sin (twoPi * r)| ≤ (1 / 100000000) * 1 :=
            mul_le_mul hub hv1 habs0 (by norm_num)
        _ = 1 / 100000000 := by norm_num
    have huu : (r / 100000000) * (r / 100000000) ≤ 1 / 100000000 := by
      calc (r / 100000000) * (r / 100000000) ≤ (1 / 100000000) * (1 / 100000000) :=
            mul_le_mul hub hub hu0 (by norm_num)
        _ ≤ 1 / 100000000 := by norm_num
    nlinarith [hcos, hpoly, hcle, huv, huu, habs0, hu0]

/-- The normalised position `ratio(j)` is nonnegative on the evaluated index
range. -/
lemma ratio_nonneg (N : ℤ) (s : WState) (j : ℤ) (hN : 2 ≤ N) (hj0 : 0 ≤ j) :
    0 ≤ ratioOf (begin N s) j := by
  unfold ratioOf
  rw [begin_samples_minus_1]
  apply div_nonneg
  · exact_mod_cast hj0
  · have : (2 : ℝ) ≤ (N : ℝ) := by exact_mod_cast hN
    linarith

/-- The normalised position `ratio(j)` is at most one on the evaluated index
range `[0, half_samples]`. -/
lemma ratio_le_one (N : ℤ) (s : WState) (j : ℤ) (hN : 2 ≤ N) (hj0 : 0 ≤ j)
    (hjh : j ≤ N.tdiv 2) : ratioOf (begin N s) j ≤ 1 := by
  have hh : N.tdiv 2 = N / 2 := tdiv_two_eq (by omega)
  unfold ratioOf
  rw [begin_samples_minus_1]
  have hd : (0 : ℝ) < -1 + (N : ℝ) := by
    have : (2 : ℝ) ≤ (N : ℝ) := by exact_mod_cast hN
    linarith
  rw [div_le_one hd]
  have : j ≤ N - 1 := by omega
  have : (j : ℝ) ≤ (N : ℝ) - 1 := by exact_mod_cast this
  linarith

/-- Every variant except Triangle, Welch and FlatTop has a nonnegative
`factor_internal` on the index range `[0, half_samples]` actually evaluated by
`factor`, after `begin(N)` with `N ≥ 2`. -/
lemma fi_nonneg (v : WindowVariant) (hv1 : v ≠ .triangle) (hv2 : v ≠ .welch)
    (hv3 : v ≠ .flatTop) (N : ℤ) (s : WState) (j : ℤ) (hN : 2 ≤ N) (hj0 : 0 ≤ j)
    (hjh : j ≤ N.tdiv 2) :
    0 ≤ v.factor_internal (begin N s) j := by
  have hh : N.tdiv 2 = N / 2 := tdiv_two_eq (by omega)
  have hr0 := ratio_nonneg N s j hN hj0
  have hr1 := ratio_le_one N s j hN hj0 hjh
  cases v with
  | rectange =>
    simp only [WindowVariant.factor_internal]
    split
    · norm_num
    · norm_num
  | hamming =>
    simp only [WindowVariant.factor_internal]
    exact hamming_formula_nonneg _
  | hann =>
    simp only [WindowVariant.factor_internal]
    exact hann_formula_nonneg _
  | triangle => exact absurd rfl hv1
  | nuttall =>
    simp only [WindowVariant.factor_internal]
    rcases eq_or_lt_of_le hj0 with hj | hj
    · have hr : ratioOf (begin N s) j = 0 := by
        unfold ratioOf
        rw [← hj]
        norm_num
      rw [hr]
      norm_num [Real.cos_zero]
    · rcases eq_or_lt_of_le hN with hN2 | hN3
      · have hj1 : j = 1 := by
          have h22 : (2 : ℤ).tdiv 2 = 1 := rfl
          omega
        have hr : ratioOf (begin N s) j = 1 := by
          unfold ratioOf
          rw [begin_samples_minus_1, hj1, ← hN2]
          norm_num
        rw [hr]
        exact nuttall_formula_nonneg_one
      · apply nuttall_formula_nonneg_mid
        · unfold ratioOf
          rw [begin_samples_minus_1]
          apply div_pos
          · exact_mod_cast hj
          · have : (2 : ℝ) ≤ (N : ℝ) := by exact_mod_cast hN
            linarith
        · unfold ratioOf
          rw [begin_samples_minus_1]
          have hd : (0 : ℝ) < -1 + (N : ℝ) := by
            have : (2 : ℝ) ≤ (N : ℝ) := by exact_mod_cast hN
            linarith
          rw [div_le_iff hd]
          have hz : 3 * j ≤ 2 * (N - 1) := by omega
          have hz' : 3 * (j : ℝ) ≤ 2 * ((N : ℝ) - 1) := by exact_mod_cast hz
          linarith
  | blackman =>
    simp only [WindowVariant.factor_internal]
    exact blackman_formula_nonneg _ hr0 hr1
  | blackmanNuttall =>
    simp only [WindowVariant.factor_internal]
    exact bn_formula_nonneg _ hr0 hr1
  | blackmanHarris =>
    simp only [WindowVariant.factor_internal]
    exact bh_formula_nonneg _ hr0 hr1
  | flatTop => exact absurd rfl hv3
  | welch => exact absurd rfl hv2

/-! ### Claim theorems -/

/-- C7: the predicate `half_samples == samples / 2` (C++ truncating division)
holds in the initial state of every window instance, is established by every
`begin`, and is preserved by every `begin` and `factor` call on plain and
buffered windows alike, so the assertion at the start of `factor` can never
fail on any call sequence of `begin`s and `factor`s. -/
theorem c7_assert_invariant :
    (assertOk WindowFunction.init ∧ ∀ (N : ℤ) (s : WState), assertOk (begin N s)) ∧
    (∀ (v : WindowVariant) (ops : List Op), assertOk (execW v ops)) ∧
    (∀ (v : WindowVariant) (ops : List Op),
      assertOk (execB v ops).base ∧ assertOk (execB v ops).wrapped) := by
  refine ⟨⟨assertOk_init, assertOk_begin⟩, ?_, ?_⟩
  · exact fun v ops => assertOk_foldW v ops WindowFunction.init assertOk_init
  · exact fun v ops => assertOk_foldB v ops BufferedWindow.init rfl rfl

/-- C10: a `factor` call, at any index, leaves the entire state of the object
unchanged: `i_samples`, `i_half_samples`, `samples_minus_1`, and for a
`BufferedWindow` also the cache and the wrapped window's state.  (The C++
bodies of `factor` and every override of `factor_internal` perform no
assignment.) -/
theorem c10_factor_is_pure :
    (∀ (v : WindowVariant) (s : WState) (idx : ℤ), stepW v s (Op.factor idx) = s) ∧
    (∀ (v : WindowVariant) (s : BWState) (idx : ℤ), stepB v s (Op.factor idx) = s) :=
  ⟨fun _ _ _ => rfl, fun _ _ _ => rfl⟩

/-- C3: after `begin(N)` with `N ≥ 1`, on every window variant (the plain ones
and the buffered decorator): (a) `factor(idx)` is clamped to at most `1.0` for
every valid index, and (b) `factor(idx) == factor(N - idx - 1)` whenever
`half_samples < idx < N`. -/
theorem c3_clamp_and_mirror :
    (∀ (v : WindowVariant) (N : ℤ) (s : WState) (idx : ℤ), 1 ≤ N →
      (0 ≤ idx → idx < N → factor v.factor_internal (begin N s) idx ≤ 1) ∧
      (N.tdiv 2 < idx → idx < N →
        factor v.factor_internal (begin N s) idx =
          factor v.factor_internal (begin N s) (N - idx - 1))) ∧
    (∀ (v : WindowVariant) (N : ℤ) (s : BWState) (idx : ℤ), 1 ≤ N →
      (0 ≤ idx → idx < N →
        BufferedWindow.factor (BufferedWindow.begin v N s) idx ≤ 1) ∧
      (N.tdiv 2 < idx → idx < N →
        BufferedWindow.factor (BufferedWindow.begin v N s) idx =
          BufferedWindow.factor (BufferedWindow.begin v N s) (N - idx - 1))) := by
  constructor
  · intro v N s idx hN
    refine ⟨fun _ _ => factor_le_one _ _ _, fun hlo hhi => ?_⟩
    exact factor_mirror v.factor_internal (begin N s) idx rfl hN hlo hhi
  · intro v N s idx hN
    unfold BufferedWindow.factor
    rw [bbegin_base]
    refine ⟨fun _ _ => factor_le_one _ _ _, fun hlo hhi => ?_⟩
    exact factor_mirror _ (begin N s.base) idx rfl hN hlo hhi

/-- Witness for C3 at the Hann window, `N = 5`, `idx = 4`. -/
theorem c3_witness :
    factor (WindowVariant.factor_internal .hann) (begin 5 WindowFunction.init) 4 ≤ 1 ∧
    factor (WindowVariant.factor_internal .hann) (begin 5 WindowFunction.init) 4 =
      factor (WindowVariant.factor_internal .hann) (begin 5 WindowFunction.init)
        (5 - 4 - 1) :=
  ⟨((c3_clamp_and_mirror.1 .hann 5 WindowFunction.init 4 (by norm_num)).1
      (by norm_num) (by norm_num)),
    ((c3_clamp_and_mirror.1 .hann 5 WindowFunction.init 4 (by norm_num)).2
      (by decide) (by norm_num))⟩

/-- C8: the `Rectange` window yields `factor(idx) == 1.0` on the whole frame. -/
theorem c8_rectange_factor_one :
    ∀ (N : ℤ) (s : WState) (idx : ℤ), 1 ≤ N → 0 ≤ idx → idx < N →
      factor (WindowVariant.factor_internal .rectange) (begin N s) idx = 1 := by
  intro N s idx hN h0 hiN
  have hh : (begin N s).i_half_samples = N / 2 := by
    rw [begin_i_half_samples, tdiv_two_eq (by omega)]
  have hone : ∀ j : ℤ, 0 ≤ j → j < N →
      WindowVariant.factor_internal .rectange (begin N s) j = 1 := by
    intro j hj0 hjN
    simp only [WindowVariant.factor_internal, begin_i_samples]
    rw [if_neg (by omega)]
  by_cases hc : idx ≤ (begin N s).i_half_samples
  · rw [factor_of_le _ _ _ hc, hone idx h0 hiN]
    unfold clampOne
    norm_num
  · rw [factor_of_gt _ _ _ (not_le.mp hc), begin_i_samples,
      hone (N - idx - 1) (by omega) (by omega)]
    unfold clampOne
    norm_num

/-- Witness for C8 at `N = 4`, `idx = 3`. -/
theorem c8_witness :
    factor (WindowVariant.factor_internal .rectange) (begin 4 WindowFunction.init) 3 = 1 :=
  c8_rectange_factor_one 4 WindowFunction.init 3 (by norm_num) (by norm_num) (by norm_num)

/-- C9 counterexample: `Hamming::factor_internal` has no range guard; at the
out-of-range index `-1` (after `begin(5)`) it returns
`0.54 - 0.46 cos(twoPi * (-1/4))  ≥ 0.08`, not `0`. -/
theorem c9_counterexample :
    WindowVariant.factor_internal .hamming (begin 5 WindowFunction.init) (-1) ≠ 0 := by
  have hc := Real.cos_le_one (twoPi * ratioOf (begin 5 WindowFunction.init) (-1))
  simp only [WindowVariant.factor_internal]
  intro h
  nlinarith

/-- C9 amended: only `Rectange::factor_internal` (for indices outside
`[0, i_samples)`) and `BufferedWindow::factor_internal` (for indices outside
`[0, i_half_samples]`) return `0` on out-of-range indices; the other variants
apply their formula without any range check. -/
theorem c9_range_guards :
    (∀ (s : WState) (idx : ℤ), idx < 0 ∨ s.i_samples ≤ idx →
      WindowVariant.factor_internal .rectange s idx = 0) ∧
    (∀ (s : BWState) (idx : ℤ), idx < 0 ∨ s.base.i_half_samples < idx →
      BufferedWindow.factor_internal s idx = 0) := by
  constructor
  · intro s idx h
    simp only [WindowVariant.factor_internal]
    rw [if_pos h]
  · intro s idx h
    unfold BufferedWindow.factor_internal
    rw [if_pos h]

/-- C4: on a fresh `BufferedWindow` wrapping a fresh Hamming window, after
`begin(8)` followed by any number of `factor` calls in any order, `factor(idx)`
equals `factor(idx)` of a plain Hamming window treated the same way, for every
`idx` in `[0,8)`. -/
theorem c4_buffered_hamming_transparent :
    ∀ rest : List Op, (∀ o ∈ rest, ∃ i, o = Op.factor i) →
    ∀ idx : ℤ, 0 ≤ idx → idx < 8 →
      BufferedWindow.factor (execB .hamming (Op.begin 8 :: rest)) idx =
        factor (WindowVariant.factor_internal .hamming)
          (execW .hamming (Op.begin 8 :: rest)) idx := by
  intro rest hrest idx h0 h8
  have hB : execB .hamming (Op.begin 8 :: rest) =
      BufferedWindow.begin .hamming 8 BufferedWindow.init := by
    unfold execB
    rw [List.foldl_cons]
    exact foldB_factors _ rest hrest _
  have hW : execW .hamming (Op.begin 8 :: rest) = begin 8 WindowFunction.init := by
    unfold execW
    rw [List.foldl_cons]
    exact foldW_factors _ rest hrest _
  rw [hB, hW]
  exact buffered_factor_fresh .hamming 8 BufferedWindow.init (by norm_num)
    (by decide) (by decide) idx h0 h8

/-- Witness for C4: the trace `begin(8); factor(3); factor(0)` at `idx = 5`. -/
theorem c4_witness :
    BufferedWindow.factor (execB .hamming [Op.begin 8, Op.factor 3, Op.factor 0]) 5 =
      factor (WindowVariant.factor_internal .hamming)
        (execW .hamming [Op.begin 8, Op.factor 3, Op.factor 0]) 5 :=
  c4_buffered_hamming_transparent [Op.factor 3, Op.factor 0]
    (by intro o ho; fin_cases ho <;> exact ⟨_, rfl⟩) 5 (by norm_num) (by norm_num)

/-- C1 counterexample: after `begin(2)`, `factor(0)` is `-2` for Triangle,
`-8` for Welch and `-0.0417934` for FlatTop — all outside `[0, 1]`, because
`factor` clamps only from above and these three formulas go negative. -/
theorem c1_counterexample :
    factor (WindowVariant.factor_internal .triangle) (begin 2 WindowFunction.init) 0 = -2 ∧
    factor (WindowVariant.factor_internal .welch) (begin 2 WindowFunction.init) 0 = -8 ∧
    factor (WindowVariant.factor_internal .flatTop) (begin 2 WindowFunction.init) 0 =
      -0.0417934 ∧ (-2 : ℝ) < 0 := by
  refine ⟨?_, ?_, ?_, by norm_num⟩
  · rw [factor_of_le _ _ _ (by decide), triangle_at_zero]
    norm_num
    rw [abs_of_nonneg (by norm_num : (0 : ℝ) ≤ 3 / 2)]
    norm_num
    exact clampOne_of_le (by norm_num)
  · rw [factor_of_le _ _ _ (by decide)]
    simp only [WindowVariant.factor_internal, begin_samples_minus_1]
    norm_num
    exact clampOne_of_le (by norm_num)
  · rw [factor_of_le _ _ _ (by decide)]
    simp only [WindowVariant.factor_internal, ratioOf, begin_samples_minus_1]
    norm_num [Real.cos_zero]
    exact clampOne_of_le (by norm_num)

/-- C1 amended: after `begin(N)` with `N ≥ 2`, `factor(idx)` is at most `1.0`
for every variant and every `idx` in `[0, N)`; it also stays at least `0.0`
for every variant except Triangle, Welch and FlatTop, whose formulas take
negative values (there is no lower clamp). -/
theorem c1_factor_range_amended :
    (∀ (v : WindowVariant) (N : ℤ) (s : WState) (idx : ℤ), 2 ≤ N → 0 ≤ idx → idx < N →
      factor v.factor_internal (begin N s) idx ≤ 1) ∧
    (∀ (v : WindowVariant) (N : ℤ) (s : WState) (idx : ℤ),
      v ≠ .triangle → v ≠ .welch → v ≠ .flatTop → 2 ≤ N → 0 ≤ idx → idx < N →
      0 ≤ factor v.factor_internal (begin N s) idx) := by
  refine ⟨fun v N s idx _ _ _ => factor_le_one _ _ _, ?_⟩
  intro v N s idx hv1 hv2 hv3 hN h0 hiN
  have hh : N.tdiv 2 = N / 2 := tdiv_two_eq (by omega)
  by_cases hc : idx ≤ (begin N s).i_half_samples
  · rw [factor_of_le _ _ _ hc]
    rw [begin_i_half_samples] at hc
    exact le_clampOne (by norm_num) (fi_nonneg v hv1 hv2 hv3 N s idx hN h0 hc)
  · rw [factor_of_gt _ _ _ (not_le.mp hc), begin_i_samples]
    rw [begin_i_half_samples] at hc
    exact le_clampOne (by norm_num)
      (fi_nonneg v hv1 hv2 hv3 N s (N - idx - 1) hN (by omega) (by omega))

/-- Witness for C1 amended: the Nuttall window at `N = 2`, `idx = 1` — the
boundary position where its formula's value is closest to zero. -/
theorem c1_witness :
    0 ≤ factor (WindowVariant.factor_internal .nuttall) (begin 2 WindowFunction.init) 1 ∧
    factor (WindowVariant.factor_internal .nuttall) (begin 2 WindowFunction.init) 1 ≤ 1 :=
  ⟨c1_factor_range_amended.2 .nuttall 2 WindowFunction.init 1
      (by intro h; cases h) (by intro h; cases h) (by intro h; cases h)
      (by norm_num) (by norm_num) (by norm_num),
    c1_factor_range_amended.1 .nuttall 2 WindowFunction.init 1
      (by norm_num) (by norm_num) (by norm_num)⟩

/-- C5 counterexample: over the call sequence
`begin(4); begin(6); begin(4)` the wrapped window's `factor_internal` is
invoked 6 times for the frame length 4 — more than `4/2 + 1 = 3` — because
each return to a previously seen length refills the cache.  (The log does not
depend on the wrapped variant; `Rectange` is used.) -/
theorem c5_counterexample :
    (execBLog .rectange [Op.begin 4, Op.begin 6, Op.begin 4]).2.count 4 = 6 ∧
    ¬(((execBLog .rectange [Op.begin 4, Op.begin 6, Op.begin 4]).2.count 4 : ℤ) ≤
        (4 : ℤ).tdiv 2 + 1) := by
  have h : (execBLog .rectange [Op.begin 4, Op.begin 6, Op.begin 4]).2.count 4 = 6 := by
    norm_num [execBLog, List.foldl, stepB, BufferedWindow.begin, wrappedCallsOf,
      WindowFunction.begin, BufferedWindow.init, WindowFunction.init]
    decide
  refine ⟨h, ?_⟩
  rw [h]
  decide

/-- C5 amended: `factor` calls on a `BufferedWindow` never invoke the wrapped
window's `factor_internal`; only `begin(N)` does, and any single `begin(N)`
(`N ≥ 0`) invokes it at most `N/2 + 1` times.  Consequently, after one
`begin(N)` on a fresh `BufferedWindow` followed by any number of `factor`
calls, the wrapped `factor_internal` runs at most `N/2 + 1` times in total.
(The frozen claim's per-length bound over arbitrary `begin` sequences fails:
revisiting a length refills the cache, see the counterexample.) -/
theorem c5_wrapped_call_bound :
    (∀ (s : BWState) (i : ℤ), wrappedCallsOf s (Op.factor i) = []) ∧
    (∀ (s : BWState) (N : ℤ), 0 ≤ N →
      ((wrappedCallsOf s (Op.begin N)).length : ℤ) ≤ N.tdiv 2 + 1) ∧
    (∀ (v : WindowVariant) (N : ℤ) (rest : List Op), 0 ≤ N →
      (∀ o ∈ rest, ∃ i, o = Op.factor i) →
      ((execBLog v (Op.begin N :: rest)).2.length : ℤ) ≤ N.tdiv 2 + 1) := by
  refine ⟨fun s i => rfl, wrappedCalls_begin_le, ?_⟩
  intro v N rest hN hrest
  unfold execBLog
  rw [List.foldl_cons, foldBLog_factors v rest hrest]
  show ((([] : List ℤ) ++ wrappedCallsOf BufferedWindow.init (Op.begin N)).length : ℤ) ≤ _
  rw [List.nil_append]
  exact wrappedCalls_begin_le _ N hN

/-- Witness for C5 amended: a fresh buffered Hamming window over the trace
`begin(8); factor(1); factor(5)`. -/
theorem c5_witness :
    ((wrappedCallsOf BufferedWindow.init (Op.begin 8)).length : ℤ) ≤ (8 : ℤ).tdiv 2 + 1 ∧
    ((execBLog .hamming [Op.begin 8, Op.factor 1, Op.factor 5]).2.length : ℤ) ≤
      (8 : ℤ).tdiv 2 + 1 :=
  ⟨c5_wrapped_call_bound.2.1 BufferedWindow.init 8 (by norm_num),
    c5_wrapped_call_bound.2.2 .hamming 8 [Op.factor 1, Op.factor 5] (by norm_num)
      (by intro o ho; fin_cases ho <;> exact ⟨_, rfl⟩)⟩

/-- C6: evaluation of the code at the failing input.  On a `BufferedWindow`
wrapping a Triangle window, `begin(5)` followed by `begin(4)` re-derives
`half_samples = 4/2 = 2` but keeps the stale length-5 cache (the skip
condition compares only sizes, and `5/2 + 1 == 4/2 + 1`), so `factor(0)`
returns the length-5 value `-1/2`, while a fresh instance after a single
`begin(4)` returns `-2/3`. -/
theorem c6_stale_cache_after_length_change :
    BufferedWindow.factor (execB .triangle [Op.begin 5, Op.begin 4]) 0 = -(1 / 2) ∧
    BufferedWindow.factor (execB .triangle [Op.begin 4]) 0 = -(2 / 3) ∧
    (execB .triangle [Op.begin 5, Op.begin 4]).base.i_half_samples = 2 := by
  have e1 : execB .triangle [Op.begin 5, Op.begin 4] =
      BufferedWindow.begin .triangle 4
        (BufferedWindow.begin .triangle 5 BufferedWindow.init) := rfl
  have h5 : BufferedWindow.begin .triangle 5 BufferedWindow.init =
      { base := begin 5 WindowFunction.init, wrapped := begin 5 WindowFunction.init
        buffer := (List.range ((5 : ℤ).tdiv 2 + 1).toNat).map
          (fun j : ℕ => factor (WindowVariant.factor_internal .triangle)
            (begin 5 WindowFunction.init) (j : ℤ)) } :=
    bbegin_of_changed .triangle 5 BufferedWindow.init (by decide) (by decide)
  refine ⟨?_, ?_, ?_⟩
  · rw [e1, h5]
    rw [bbegin_keep_buffer .triangle 4 _ (by decide) (by simp; decide)]
    unfold BufferedWindow.factor
    rw [factor_of_le _ _ _ (by decide)]
    show clampOne (BufferedWindow.factor_internal _ 0) = _
    unfold BufferedWindow.factor_internal
    rw [if_neg (by decide)]
    show clampOne (((List.range ((5 : ℤ).tdiv 2 + 1).toNat).map
        (fun j : ℕ => factor (WindowVariant.factor_internal .triangle)
          (begin 5 WindowFunction.init) (j : ℤ))).getD (0 : ℤ).toNat 0) = _
    rw [getD_map_range _ _ _ (by decide)]
    show clampOne (factor (WindowVariant.factor_internal .triangle)
      (begin 5 WindowFunction.init) (0 : ℤ)) = _
    rw [factor_of_le _ _ _ (by decide), triangle_at_zero]
    norm_num
    rw [clampOne_of_le (clampOne_le_one _), clampOne_of_le (by norm_num)]
  · have e2 : execB .triangle [Op.begin 4] =
        BufferedWindow.begin .triangle 4 BufferedWindow.init := rfl
    have h4 : BufferedWindow.begin .triangle 4 BufferedWindow.init =
        { base := begin 4 WindowFunction.init, wrapped := begin 4 WindowFunction.init
          buffer := (List.range ((4 : ℤ).tdiv 2 + 1).toNat).map
            (fun j : ℕ => factor (WindowVariant.factor_internal .triangle)
              (begin 4 WindowFunction.init) (j : ℤ)) } :=
      bbegin_of_changed .triangle 4 BufferedWindow.init (by decide) (by decide)
    rw [e2, h4]
    unfold BufferedWindow.factor
    rw [factor_of_le _ _ _ (by decide)]
    show clampOne (BufferedWindow.factor_internal _ 0) = _
    unfold BufferedWindow.factor_internal
    rw [if_neg (by decide)]
    show clampOne (((List.range ((4 : ℤ).tdiv 2 + 1).toNat).map
        (fun j : ℕ => factor (WindowVariant.factor_internal .triangle)
          (begin 4 WindowFunction.init) (j : ℤ))).getD (0 : ℤ).toNat 0) = _
    rw [getD_map_range _ _ _ (by decide)]
    show clampOne (factor (WindowVariant.factor_internal .triangle)
      (begin 4 WindowFunction.init) (0 : ℤ)) = _
    rw [factor_of_le _ _ _ (by decide), triangle_at_zero]
    norm_num
    rw [abs_of_nonneg (by norm_num : (0 : ℝ) ≤ 5 / 2)]
    norm_num
    rw [clampOne_of_le (clampOne_le_one _), clampOne_of_le (by norm_num)]
  · rw [e1, bbegin_base, begin_i_half_samples]
    decide

/-- C2 counterexample: the Triangle window after `begin(4)` violates the
claimed symmetry `factor(idx) == factor(N-1-idx)` at `idx = 1`:
`factor(1) = 0` while `factor(4-1-1) = factor(2) = 2/3`. -/
theorem c2_counterexample :
    factor (WindowVariant.factor_internal .triangle) (begin 4 WindowFunction.init) 1 = 0 ∧
    factor (WindowVariant.factor_internal .triangle) (begin 4 WindowFunction.init) 2 = 2 / 3 ∧
    (0 : ℝ) ≠ 2 / 3 := by
  refine ⟨?_, ?_, by norm_num⟩
  · rw [factor_of_le _ _ _ (by decide)]
    simp only [WindowVariant.factor_internal, begin_i_samples, begin_samples_minus_1]
    norm_num
    rw [abs_of_nonneg (by norm_num : (0 : ℝ) ≤ 3 / 2)]
    norm_num
    exact clampOne_of_le (by norm_num)
  · rw [factor_of_le _ _ _ (by decide)]
    simp only [WindowVariant.factor_internal, begin_i_samples, begin_samples_minus_1]
    norm_num
    rw [abs_of_nonneg (by norm_num : (0 : ℝ) ≤ 1 / 2)]
    norm_num
    exact clampOne_of_le (by norm_num)

/-- C2 amended: for every window variant (plain or buffered), after `begin(N)`
with `N ≥ 2`, the symmetry `factor(idx) == factor(N-1-idx)` holds for every
`idx` in `[0,N)` except possibly at the central index pair
`{N/2 - 1, N/2}` of an even `N`, where it can fail (it does fail for the
Triangle window at `N = 4`, `idx = 1`). -/
theorem c2_symmetry_amended :
    (∀ (v : WindowVariant) (N : ℤ) (s : WState) (idx : ℤ),
      2 ≤ N → 0 ≤ idx → idx < N →
      (N % 2 = 1 ∨ (idx ≠ N / 2 - 1 ∧ idx ≠ N / 2)) →
      factor v.factor_internal (begin N s) idx =
        factor v.factor_internal (begin N s) (N - 1 - idx)) ∧
    (∀ (v : WindowVariant) (N : ℤ) (s : BWState) (idx : ℤ),
      2 ≤ N → 0 ≤ idx → idx < N →
      (N % 2 = 1 ∨ (idx ≠ N / 2 - 1 ∧ idx ≠ N / 2)) →
      BufferedWindow.factor (BufferedWindow.begin v N s) idx =
        BufferedWindow.factor (BufferedWindow.begin v N s) (N - 1 - idx)) := by
  constructor
  · intro v N s idx hN h0 hiN hnc
    exact factor_symm_noncentral v.factor_internal (begin N s) idx rfl hN h0 hiN hnc
  · intro v N s idx hN h0 hiN hnc
    unfold BufferedWindow.factor
    rw [bbegin_base]
    exact factor_symm_noncentral _ (begin N s.base) idx rfl hN h0 hiN hnc

/-- Witness for C2 amended: the Hamming window, `N = 5` (odd), `idx = 0`. -/
theorem c2_witness :
    factor (WindowVariant.factor_internal .hamming) (begin 5 WindowFunction.init) 0 =
      factor (WindowVariant.factor_internal .hamming) (begin 5 WindowFunction.init)
        (5 - 1 - 0) :=
  c2_symmetry_amended.1 .hamming 5 WindowFunction.init 0 (by norm_num) (by norm_num)
    (by norm_num) (Or.inl (by decide))

/-- Witness for C9 amended: `Rectange` after `begin(3)` at index `7`, and a
buffered state at index `-2`. -/
theorem c9_witness :
    WindowVariant.factor_internal .rectange (begin 3 WindowFunction.init) 7 = 0 ∧
    BufferedWindow.factor_internal BufferedWindow.init (-2) = 0 :=
  ⟨c9_range_guards.1 (begin 3 WindowFunction.init) 7 (by right; decide),
    c9_range_guards.2 BufferedWindow.init (-2) (by left; decide)⟩

end audio_tools
